import Mathlib

/-!
Verification of the `pmpmc` priority channel (`src/lib.rs`).

The channel's shared state is `Inner<T> { queue: Mutex<Vec<T>> }`; every
operation locks the mutex, mutates the `Vec`, and releases the lock, so each
operation is one atomic step on the queue.  We embed the queue as a `List α`
(front of the vector at the head of the list; `Vec::push` appends at the back,
`Vec::pop` removes the last element) and each channel operation as a pure
function from the queue to a result and the new queue.

Rust's `slice::sort` is a stable ascending sort by the `Ord` instance; we
embed it as `List.mergeSort` with an explicit boolean comparison `le`, which
is exactly a stable ascending merge sort.  A lawful `Ord` instance supplies a
total, transitive comparison, so theorems assume totality and transitivity of
`le` where the sortedness of the result matters.  Items that compare equal
need not be identical values (the crate's tests order a struct by one field
only), so `le` is not assumed antisymmetric.
-/

namespace Pmpmc

/-- Embedding of `Sender::send`: `self.inner.queue.lock().push(item)` — append at the back
of the vector. -/
def send {α : Type} (q : List α) (x : α) : List α :=
  q ++ [x]

/-- Embedding of `Receiver::recv_greatest`: `queue.sort(); queue.pop()` — stable ascending
sort, then remove and return the last element (`Vec::pop` yields `None` on an
empty vector).  Returns the popped element together with the queue the channel
is left with. -/
def recv_greatest {α : Type} (le : α → α → Bool) (q : List α) : Option α × List α :=
  ((q.mergeSort le).getLast?, (q.mergeSort le).dropLast)

/-- Embedding of `Receiver::recv_least`: `queue.sort(); queue.reverse(); queue.pop()` —
stable ascending sort, reverse in place, then remove and return the last
element of the reversed vector.  Returns the popped element together with the
queue the channel is left with. -/
def recv_least {α : Type} (le : α → α → Bool) (q : List α) : Option α × List α :=
  ((q.mergeSort le).reverse.getLast?, (q.mergeSort le).reverse.dropLast)

/-- A sequence of `send` calls performed in order on a queue. -/
def sendAll {α : Type} (q : List α) (xs : List α) : List α :=
  xs.foldl send q

theorem sendAll_eq_append {α : Type} (xs : List α) :
    ∀ q : List α, sendAll q xs = q ++ xs := by
  induction xs with
  | nil => intro q; simp [sendAll]
  | cons x xs ih =>
      intro q
      have h := ih (send q x)
      simp only [sendAll, List.foldl_cons] at h ⊢
      rw [h, send]
      simp

theorem sendAll_nil {α : Type} (xs : List α) : sendAll [] xs = xs := by
  simpa using sendAll_eq_append xs []

theorem recv_greatest_snd_length {α : Type} (le : α → α → Bool) (q : List α) :
    (recv_greatest le q).2.length = q.length - 1 := by
  simp [recv_greatest]

theorem recv_least_snd_length {α : Type} (le : α → α → Bool) (q : List α) :
    (recv_least le q).2.length = q.length - 1 := by
  simp [recv_least]

theorem recv_greatest_fst_eq_none {α : Type} {le : α → α → Bool} {q : List α}
    (h : (recv_greatest le q).1 = none) : q = [] := by
  simp only [recv_greatest, List.getLast?_eq_none_iff] at h
  have := @List.length_mergeSort _ le q
  rw [h] at this
  exact List.length_eq_zero.mp this.symm

theorem recv_least_fst_eq_none {α : Type} {le : α → α → Bool} {q : List α}
    (h : (recv_least le q).1 = none) : q = [] := by
  simp only [recv_least, List.getLast?_eq_none_iff, List.reverse_eq_nil_iff] at h
  have := @List.length_mergeSort _ le q
  rw [h] at this
  exact List.length_eq_zero.mp this.symm

/-- Popping the last element is one multiset removal: the popped element
together with the remaining list is a permutation of the original list. -/
theorem cons_dropLast_perm {α : Type} {l : List α} {x : α}
    (h : l.getLast? = some x) : (x :: l.dropLast).Perm l := by
  have hne : l ≠ [] := by
    intro hl; rw [hl] at h; simp at h
  have hx : l.getLast hne = x := by
    have := List.getLast?_eq_getLast l hne
    rw [h] at this
    exact (Option.some_injective _ this.symm)
  have hsplit := List.dropLast_append_getLast hne
  rw [hx] at hsplit
  have hp : (x :: l.dropLast).Perm (l.dropLast ++ [x]) :=
    (List.perm_append_singleton x l.dropLast).symm
  rw [hsplit] at hp
  exact hp

theorem recv_greatest_perm {α : Type} {le : α → α → Bool} {q q' : List α} {x : α}
    (h : recv_greatest le q = (some x, q')) : (x :: q').Perm q := by
  simp only [recv_greatest, Prod.mk.injEq] at h
  obtain ⟨h1, h2⟩ := h
  rw [← h2]
  exact (cons_dropLast_perm h1).trans (List.mergeSort_perm q le)

theorem recv_least_perm {α : Type} {le : α → α → Bool} {q q' : List α} {x : α}
    (h : recv_least le q = (some x, q')) : (x :: q').Perm q := by
  simp only [recv_least, Prod.mk.injEq] at h
  obtain ⟨h1, h2⟩ := h
  rw [← h2]
  exact ((cons_dropLast_perm h1).trans
    ((q.mergeSort le).reverse_perm)).trans (List.mergeSort_perm q le)

/-- Draining loop: repeatedly call `recv_greatest` until it returns `None`,
collecting the returned items in order. -/
def drainGreatest {α : Type} (le : α → α → Bool) (q : List α) : List α :=
  match h : recv_greatest le q with
  | (none, _) => []
  | (some x, q') => x :: drainGreatest le q'
termination_by q.length
decreasing_by
  have hl : q'.length = q.length - 1 := by
    have := recv_greatest_snd_length le q
    rw [h] at this
    exact this
  have hq : q ≠ [] := by
    intro hq
    rw [hq] at h
    simp [recv_greatest] at h
  have : 0 < q.length := List.length_pos.mpr hq
  omega

/-- Draining loop: repeatedly call `recv_least` until it returns `None`,
collecting the returned items in order. -/
def drainLeast {α : Type} (le : α → α → Bool) (q : List α) : List α :=
  match h : recv_least le q with
  | (none, _) => []
  | (some x, q') => x :: drainLeast le q'
termination_by q.length
decreasing_by
  have hl : q'.length = q.length - 1 := by
    have := recv_least_snd_length le q
    rw [h] at this
    exact this
  have hq : q ≠ [] := by
    intro hq
    rw [hq] at h
    simp [recv_least] at h
  have : 0 < q.length := List.length_pos.mpr hq
  omega

theorem drainGreatest_eq_nil {α : Type} {le : α → α → Bool} {q w : List α}
    (h : recv_greatest le q = (none, w)) : drainGreatest le q = [] := by
  rw [drainGreatest]
  split
  · rfl
  · next x q' heq =>
      rw [h] at heq
      simp at heq

theorem drainGreatest_eq_cons {α : Type} {le : α → α → Bool} {q q' : List α} {x : α}
    (h : recv_greatest le q = (some x, q')) :
    drainGreatest le q = x :: drainGreatest le q' := by
  rw [drainGreatest]
  split
  · next w heq =>
      rw [h] at heq
      simp at heq
  · next y p heq =>
      rw [h] at heq
      obtain ⟨h1, h2⟩ := Prod.mk.injEq .. ▸ heq
      cases h1
      cases h2
      rfl

theorem drainLeast_eq_nil {α : Type} {le : α → α → Bool} {q w : List α}
    (h : recv_least le q = (none, w)) : drainLeast le q = [] := by
  rw [drainLeast]
  split
  · rfl
  · next x q' heq =>
      rw [h] at heq
      simp at heq

theorem drainLeast_eq_cons {α : Type} {le : α → α → Bool} {q q' : List α} {x : α}
    (h : recv_least le q = (some x, q')) :
    drainLeast le q = x :: drainLeast le q' := by
  rw [drainLeast]
  split
  · next w heq =>
      rw [h] at heq
      simp at heq
  · next y p heq =>
      rw [h] at heq
      obtain ⟨h1, h2⟩ := Prod.mk.injEq .. ▸ heq
      cases h1
      cases h2
      rfl

/-- In a list sorted ascending by `le`, the last element is an upper bound. -/
theorem le_getLast_of_pairwise {α : Type} {le : α → α → Bool}
    (htot : ∀ a b : α, (le a b || le b a) = true) :
    ∀ {s : List α}, s.Pairwise (fun a b => le a b = true) →
      ∀ {x : α}, s.getLast? = some x → ∀ y ∈ s, le y x = true := by
  intro s
  induction s with
  | nil => intro _ x hx; simp at hx
  | cons a t ih =>
      intro hs x hx y hy
      cases t with
      | nil =>
          simp at hx hy
          subst hx
          subst hy
          have := htot y y
          rwa [Bool.or_self] at this
      | cons b t' =>
          rw [List.getLast?_cons_cons] at hx
          rcases List.mem_cons.mp hy with hya | hyt
          · subst hya
            have hxmem : x ∈ b :: t' := List.mem_of_mem_getLast? hx
            exact List.rel_of_pairwise_cons hs hxmem
          · exact ih hs.of_cons hx y hyt

/-- In a list sorted ascending by `le`, the head is a lower bound. -/
theorem head_le_of_pairwise {α : Type} {le : α → α → Bool}
    (htot : ∀ a b : α, (le a b || le b a) = true) {s : List α}
    (hs : s.Pairwise (fun a b => le a b = true)) {x : α}
    (hx : s.head? = some x) : ∀ y ∈ s, le x y = true := by
  cases s with
  | nil => simp at hx
  | cons a t =>
      simp only [List.head?_cons, Option.some.injEq] at hx
      subst hx
      intro y hy
      rcases List.mem_cons.mp hy with hya | hyt
      · subst hya
        have := htot y y
        rwa [Bool.or_self] at this
      · exact List.rel_of_pairwise_cons hs hyt

/-- A successful `recv_greatest` returns an upper bound of the queue. -/
theorem recv_greatest_max {α : Type} {le : α → α → Bool}
    (htrans : ∀ a b c : α, le a b = true → le b c = true → le a c = true)
    (htot : ∀ a b : α, (le a b || le b a) = true) {q : List α} {x : α}
    (h : (recv_greatest le q).1 = some x) : ∀ y ∈ q, le y x = true := by
  have hs := List.sorted_mergeSort htrans htot q
  simp only [recv_greatest] at h
  intro y hy
  exact le_getLast_of_pairwise htot hs h y (List.mem_mergeSort.mpr hy)

/-- A successful `recv_least` returns a lower bound of the queue. -/
theorem recv_least_min {α : Type} {le : α → α → Bool}
    (htrans : ∀ a b c : α, le a b = true → le b c = true → le a c = true)
    (htot : ∀ a b : α, (le a b || le b a) = true) {q : List α} {x : α}
    (h : (recv_least le q).1 = some x) : ∀ y ∈ q, le x y = true := by
  have hs := List.sorted_mergeSort htrans htot q
  simp only [recv_least, List.getLast?_reverse] at h
  intro y hy
  exact head_le_of_pairwise htot hs h y (List.mem_mergeSort.mpr hy)

theorem drainGreatest_perm {α : Type} (le : α → α → Bool) (q : List α) :
    (drainGreatest le q).Perm q := by
  induction q using drainGreatest.induct le with
  | case1 q w h =>
      rw [drainGreatest_eq_nil h]
      have hq : q = [] := recv_greatest_fst_eq_none (by rw [h])
      subst hq
      exact List.Perm.refl []
  | case2 q x q' h ih =>
      rw [drainGreatest_eq_cons h]
      exact (ih.cons x).trans (recv_greatest_perm h)

theorem drainLeast_perm {α : Type} (le : α → α → Bool) (q : List α) :
    (drainLeast le q).Perm q := by
  induction q using drainLeast.induct le with
  | case1 q w h =>
      rw [drainLeast_eq_nil h]
      have hq : q = [] := recv_least_fst_eq_none (by rw [h])
      subst hq
      exact List.Perm.refl []
  | case2 q x q' h ih =>
      rw [drainLeast_eq_cons h]
      exact (ih.cons x).trans (recv_least_perm h)

theorem drainGreatest_pairwise {α : Type} {le : α → α → Bool}
    (htrans : ∀ a b c : α, le a b = true → le b c = true → le a c = true)
    (htot : ∀ a b : α, (le a b || le b a) = true) (q : List α) :
    List.Pairwise (fun a b => le b a = true) (drainGreatest le q) := by
  induction q using drainGreatest.induct le with
  | case1 q w h =>
      rw [drainGreatest_eq_nil h]
      exact List.Pairwise.nil
  | case2 q x q' h ih =>
      rw [drainGreatest_eq_cons h]
      refine List.Pairwise.cons ?_ ih
      intro y hy
      have hy' : y ∈ q' := ((drainGreatest_perm le q').mem_iff).mp hy
      have hyq : y ∈ q := ((recv_greatest_perm h).mem_iff).mp (List.mem_cons_of_mem x hy')
      exact recv_greatest_max htrans htot (by rw [h]) y hyq

theorem drainLeast_pairwise {α : Type} {le : α → α → Bool}
    (htrans : ∀ a b c : α, le a b = true → le b c = true → le a c = true)
    (htot : ∀ a b : α, (le a b || le b a) = true) (q : List α) :
    List.Pairwise (fun a b => le a b = true) (drainLeast le q) := by
  induction q using drainLeast.induct le with
  | case1 q w h =>
      rw [drainLeast_eq_nil h]
      exact List.Pairwise.nil
  | case2 q x q' h ih =>
      rw [drainLeast_eq_cons h]
      refine List.Pairwise.cons ?_ ih
      intro y hy
      have hy' : y ∈ q' := ((drainLeast_perm le q').mem_iff).mp hy
      have hyq : y ∈ q := ((recv_least_perm h).mem_iff).mp (List.mem_cons_of_mem x hy')
      exact recv_least_min htrans htot (by rw [h]) y hyq

/-- The comparison of `Ord for u32` / `Ord for i32` specialised to `Nat`. -/
def leN : Nat → Nat → Bool := fun a b => decide (a ≤ b)

theorem leN_trans : ∀ a b c : Nat, leN a b = true → leN b c = true → leN a c = true := by
  intro a b c hab hbc
  simp only [leN, decide_eq_true_eq] at *
  omega

theorem leN_total : ∀ a b : Nat, (leN a b || leN b a) = true := by
  intro a b
  simp only [leN]
  rcases Nat.le_total a b with h | h
  · simp [h]
  · simp [h]

/-- The comparison of the crate's `TestStruct`: a pair ordered by its first
component only, so distinct values can compare equal. -/
def leI : Nat × Nat → Nat × Nat → Bool := fun a b => decide (a.1 ≤ b.1)

theorem leI_trans : ∀ a b c : Nat × Nat, leI a b = true → leI b c = true → leI a c = true := by
  intro a b c hab hbc
  simp only [leI, decide_eq_true_eq] at *
  omega

theorem leI_total : ∀ a b : Nat × Nat, (leI a b || leI b a) = true := by
  intro a b
  simp only [leI]
  rcases Nat.le_total a.1 b.1 with h | h
  · simp [h]
  · simp [h]

/-- Claim C1: for every sequence of items sent on a channel (with no intervening
receives), repeatedly calling `recv_greatest` until it returns absent yields
the sent items in non-increasing order, and repeatedly calling `recv_least`
until absent yields the sent items in non-decreasing order. -/
theorem drain_yields_sorted {α : Type} (le : α → α → Bool)
    (htrans : ∀ a b c : α, le a b = true → le b c = true → le a c = true)
    (htot : ∀ a b : α, (le a b || le b a) = true) (l : List α) :
    ((drainGreatest le (sendAll [] l)).Perm l ∧
      List.Pairwise (fun a b => le b a = true) (drainGreatest le (sendAll [] l))) ∧
    ((drainLeast le (sendAll [] l)).Perm l ∧
      List.Pairwise (fun a b => le a b = true) (drainLeast le (sendAll [] l))) := by
  rw [sendAll_nil]
  exact ⟨⟨drainGreatest_perm le l, drainGreatest_pairwise htrans htot l⟩,
    ⟨drainLeast_perm le l, drainLeast_pairwise htrans htot l⟩⟩

/-- Witness for C1 at the spec's own example `send(3), send(1), send(2)`. -/
theorem drain_yields_sorted_witness :
    (∀ a b : Nat, (leN a b || leN b a) = true) ∧
    (((drainGreatest leN (sendAll [] [3, 1, 2])).Perm [3, 1, 2] ∧
      List.Pairwise (fun a b => leN b a = true) (drainGreatest leN (sendAll [] [3, 1, 2]))) ∧
    ((drainLeast leN (sendAll [] [3, 1, 2])).Perm [3, 1, 2] ∧
      List.Pairwise (fun a b => leN a b = true) (drainLeast leN (sendAll [] [3, 1, 2])))) :=
  ⟨leN_total, drain_yields_sorted leN leN_trans leN_total [3, 1, 2]⟩

/-- Claim C2: `recv_greatest` returns absent iff the store is empty; on a
non-empty store it returns an item that compares greater than or equal to
every item in the store, and the store it leaves behind is the old store with
that one occurrence removed (as a multiset). -/
theorem recv_greatest_spec {α : Type} (le : α → α → Bool)
    (htrans : ∀ a b c : α, le a b = true → le b c = true → le a c = true)
    (htot : ∀ a b : α, (le a b || le b a) = true) (q : List α) :
    ((recv_greatest le q).1 = none ↔ q = []) ∧
    ∀ x : α, (recv_greatest le q).1 = some x →
      (∀ y ∈ q, le y x = true) ∧ (x :: (recv_greatest le q).2).Perm q := by
  refine ⟨⟨recv_greatest_fst_eq_none, ?_⟩, ?_⟩
  · intro hq
    subst hq
    simp [recv_greatest]
  · intro x hx
    refine ⟨recv_greatest_max htrans htot hx, ?_⟩
    have h : recv_greatest le q = (some x, (recv_greatest le q).2) := by
      rw [← hx]
    exact recv_greatest_perm h

/-- Witness for C2 on the store left by `send(3), send(1), send(2)`. -/
theorem recv_greatest_spec_witness :
    (∀ a b : Nat, (leN a b || leN b a) = true) ∧
    (((recv_greatest leN [3, 1, 2]).1 = none ↔ ([3, 1, 2] : List Nat) = []) ∧
    ∀ x : Nat, (recv_greatest leN [3, 1, 2]).1 = some x →
      (∀ y ∈ [3, 1, 2], leN y x = true) ∧
        (x :: (recv_greatest leN [3, 1, 2]).2).Perm [3, 1, 2]) :=
  ⟨leN_total, recv_greatest_spec leN leN_trans leN_total [3, 1, 2]⟩

/-- Claim C3: `recv_least` returns absent iff the store is empty; on a
non-empty store it returns an item that compares less than or equal to every
item in the store, and the store it leaves behind is the old store with that
one occurrence removed (as a multiset). -/
theorem recv_least_spec {α : Type} (le : α → α → Bool)
    (htrans : ∀ a b c : α, le a b = true → le b c = true → le a c = true)
    (htot : ∀ a b : α, (le a b || le b a) = true) (q : List α) :
    ((recv_least le q).1 = none ↔ q = []) ∧
    ∀ x : α, (recv_least le q).1 = some x →
      (∀ y ∈ q, le x y = true) ∧ (x :: (recv_least le q).2).Perm q := by
  refine ⟨⟨recv_least_fst_eq_none, ?_⟩, ?_⟩
  · intro hq
    subst hq
    simp [recv_least]
  · intro x hx
    refine ⟨recv_least_min htrans htot hx, ?_⟩
    have h : recv_least le q = (some x, (recv_least le q).2) := by
      rw [← hx]
    exact recv_least_perm h

/-- Witness for C3 on the store left by `send(3), send(1), send(2)`. -/
theorem recv_least_spec_witness :
    (∀ a b : Nat, (leN a b || leN b a) = true) ∧
    (((recv_least leN [3, 1, 2]).1 = none ↔ ([3, 1, 2] : List Nat) = []) ∧
    ∀ x : Nat, (recv_least leN [3, 1, 2]).1 = some x →
      (∀ y ∈ [3, 1, 2], leN x y = true) ∧
        (x :: (recv_least leN [3, 1, 2]).2).Perm [3, 1, 2]) :=
  ⟨leN_total, recv_least_spec leN leN_trans leN_total [3, 1, 2]⟩

/-- Claim C6: on an empty channel both receive operations return absent and
leave the store empty, so while the channel stays empty every subsequent call
returns absent again with no observable state change. -/
theorem recv_on_empty {α : Type} (le : α → α → Bool) :
    recv_greatest le ([] : List α) = (none, []) ∧
    recv_least le ([] : List α) = (none, []) := by
  constructor
  · simp [recv_greatest]
  · simp [recv_least]

/-- One channel operation of a sequential program against the shared store.
Cloning a `Sender` or `Receiver` only clones the `Arc` around the shared
`Inner`, so the clone operations touch the store not at all and return no
item. -/
inductive Op (α : Type) where
  | send : α → Op α
  | recvG : Op α
  | recvL : Op α
  | cloneS : Op α
  | cloneR : Op α

/-- The items a sequence of operations sends, in order. -/
def sentOf {α : Type} : List (Op α) → List α
  | [] => []
  | Op.send x :: ops => x :: sentOf ops
  | Op.recvG :: ops => sentOf ops
  | Op.recvL :: ops => sentOf ops
  | Op.cloneS :: ops => sentOf ops
  | Op.cloneR :: ops => sentOf ops

/-- Run a sequence of operations against a store, returning the final store
and the items the receive calls successfully returned, in order. -/
def runOps {α : Type} (le : α → α → Bool) : List α → List (Op α) → List α × List α
  | q, [] => (q, [])
  | q, Op.send x :: ops => runOps le (send q x) ops
  | q, Op.recvG :: ops =>
      let r := recv_greatest le q
      let p := runOps le r.2 ops
      (p.1, r.1.toList ++ p.2)
  | q, Op.recvL :: ops =>
      let r := recv_least le q
      let p := runOps le r.2 ops
      (p.1, r.1.toList ++ p.2)
  | q, Op.cloneS :: ops => runOps le q ops
  | q, Op.cloneR :: ops => runOps le q ops

theorem recv_greatest_toList_perm {α : Type} (le : α → α → Bool) (q : List α) :
    ((recv_greatest le q).1.toList ++ (recv_greatest le q).2).Perm q := by
  cases h : (recv_greatest le q).1 with
  | none =>
      have hq : q = [] := recv_greatest_fst_eq_none h
      subst hq
      simp [recv_greatest]
  | some x =>
      have h' : recv_greatest le q = (some x, (recv_greatest le q).2) := by rw [← h]
      simpa using recv_greatest_perm h'

theorem recv_least_toList_perm {α : Type} (le : α → α → Bool) (q : List α) :
    ((recv_least le q).1.toList ++ (recv_least le q).2).Perm q := by
  cases h : (recv_least le q).1 with
  | none =>
      have hq : q = [] := recv_least_fst_eq_none h
      subst hq
      simp [recv_least]
  | some x =>
      have h' : recv_least le q = (some x, (recv_least le q).2) := by rw [← h]
      simpa using recv_least_perm h'

theorem runOps_conservation {α : Type} (le : α → α → Bool) :
    ∀ (ops : List (Op α)) (q : List α),
      ((runOps le q ops).1 ++ (runOps le q ops).2).Perm (q ++ sentOf ops) := by
  intro ops
  induction ops with
  | nil =>
      intro q
      simp [runOps, sentOf]
  | cons op ops ih =>
      intro q
      cases op with
      | send x =>
          have h := ih (send q x)
          simp only [runOps, sentOf]
          have h2 : (send q x) ++ sentOf ops = q ++ x :: sentOf ops := by
            simp [send]
          rw [h2] at h
          exact h
      | recvG =>
          simp only [runOps, sentOf]
          have hstep := recv_greatest_toList_perm le q
          have hrun := ih (recv_greatest le q).2
          set o := (recv_greatest le q).1.toList with ho
          set r := (recv_greatest le q).2 with hr
          set p := runOps le r ops with hp
          have h1 : (p.1 ++ (o ++ p.2)).Perm (o ++ (p.1 ++ p.2)) := by
            rw [← List.append_assoc, ← List.append_assoc]
            exact (List.perm_append_comm).append_right p.2
          have h2 : (o ++ (p.1 ++ p.2)).Perm (o ++ (r ++ sentOf ops)) :=
            hrun.append_left o
          have h3 : (o ++ (r ++ sentOf ops)).Perm (q ++ sentOf ops) := by
            rw [← List.append_assoc]
            exact hstep.append_right (sentOf ops)
          exact (h1.trans h2).trans h3
      | recvL =>
          simp only [runOps, sentOf]
          have hstep := recv_least_toList_perm le q
          have hrun := ih (recv_least le q).2
          set o := (recv_least le q).1.toList with ho
          set r := (recv_least le q).2 with hr
          set p := runOps le r ops with hp
          have h1 : (p.1 ++ (o ++ p.2)).Perm (o ++ (p.1 ++ p.2)) := by
            rw [← List.append_assoc, ← List.append_assoc]
            exact (List.perm_append_comm).append_right p.2
          have h2 : (o ++ (p.1 ++ p.2)).Perm (o ++ (r ++ sentOf ops)) :=
            hrun.append_left o
          have h3 : (o ++ (r ++ sentOf ops)).Perm (q ++ sentOf ops) := by
            rw [← List.append_assoc]
            exact hstep.append_right (sentOf ops)
          exact (h1.trans h2).trans h3
      | cloneS =>
          simp only [runOps, sentOf]
          exact ih q
      | cloneR =>
          simp only [runOps, sentOf]
          exact ih q

/-- Claim C4: after any sequence of `send`, `recv_greatest` and `recv_least`
operations starting from a fresh channel, the store together with the items
the receive calls returned is exactly the multiset of items sent: nothing is
lost, duplicated or invented.  In particular, a run that fully drains the
channel has extracted exactly as many items as were sent. -/
theorem run_no_loss_no_duplication {α : Type} (le : α → α → Bool) (ops : List (Op α)) :
    ((runOps le [] ops).1 ++ (runOps le [] ops).2).Perm (sentOf ops) ∧
    ((runOps le [] ops).1 = [] →
      ((runOps le [] ops).2).Perm (sentOf ops) ∧
        (runOps le [] ops).2.length = (sentOf ops).length) := by
  have h := runOps_conservation le ops []
  simp only [List.nil_append] at h
  refine ⟨h, ?_⟩
  intro hempty
  rw [hempty] at h
  simp only [List.nil_append] at h
  exact ⟨h, h.length_eq⟩

/-- Witness for C4: `send 3, send 1, recv_greatest, send 2, recv_least,
recv_greatest` fully drains the channel. -/
theorem run_no_loss_no_duplication_witness :
    ((runOps leN [] [Op.send 3, Op.send 1, Op.recvG, Op.send 2, Op.recvL, Op.recvG]).1 ++
      (runOps leN [] [Op.send 3, Op.send 1, Op.recvG, Op.send 2, Op.recvL, Op.recvG]).2).Perm
      (sentOf [Op.send 3, Op.send 1, Op.recvG, Op.send 2, Op.recvL, Op.recvG]) ∧
    ((runOps leN [] [Op.send 3, Op.send 1, Op.recvG, Op.send 2, Op.recvL, Op.recvG]).1 = [] →
      ((runOps leN [] [Op.send 3, Op.send 1, Op.recvG, Op.send 2, Op.recvL, Op.recvG]).2).Perm
        (sentOf [Op.send 3, Op.send 1, Op.recvG, Op.send 2, Op.recvL, Op.recvG]) ∧
        (runOps leN [] [Op.send 3, Op.send 1, Op.recvG, Op.send 2, Op.recvL, Op.recvG]).2.length =
          (sentOf [Op.send 3, Op.send 1, Op.recvG, Op.send 2, Op.recvL, Op.recvG]).length) :=
  run_no_loss_no_duplication leN [Op.send 3, Op.send 1, Op.recvG, Op.send 2, Op.recvL, Op.recvG]

/-- Two cloned receivers share the one store; a schedule lists, step by step,
which receiver's `recv_greatest` call wins the lock next (`true` for receiver
A, `false` for receiver B).  Returns receiver A's items, receiver B's items,
and the final store. -/
def drainTwo {α : Type} (le : α → α → Bool) : List Bool → List α → List α × List α × List α
  | [], q => ([], [], q)
  | true :: ts, q =>
      ((recv_greatest le q).1.toList ++ (drainTwo le ts (recv_greatest le q).2).1,
        (drainTwo le ts (recv_greatest le q).2).2.1,
        (drainTwo le ts (recv_greatest le q).2).2.2)
  | false :: ts, q =>
      ((drainTwo le ts (recv_greatest le q).2).1,
        (recv_greatest le q).1.toList ++ (drainTwo le ts (recv_greatest le q).2).2.1,
        (drainTwo le ts (recv_greatest le q).2).2.2)

theorem drainTwo_conservation {α : Type} (le : α → α → Bool) :
    ∀ (sched : List Bool) (q : List α),
      (((drainTwo le sched q).1 ++ (drainTwo le sched q).2.1) ++
        (drainTwo le sched q).2.2).Perm q := by
  intro sched
  induction sched with
  | nil =>
      intro q
      simp [drainTwo]
  | cons t ts ih =>
      intro q
      have hstep := recv_greatest_toList_perm le q
      have hrec := ih (recv_greatest le q).2
      set o := (recv_greatest le q).1.toList with ho
      set r := (recv_greatest le q).2 with hr
      set p := drainTwo le ts r with hp
      have hmain : (o ++ ((p.1 ++ p.2.1) ++ p.2.2)).Perm q :=
        (hrec.append_left o).trans hstep
      cases t with
      | true =>
          simp only [drainTwo, ← ho, ← hr, ← hp]
          have he : ((o ++ p.1) ++ p.2.1) ++ p.2.2 = o ++ ((p.1 ++ p.2.1) ++ p.2.2) := by
            simp [List.append_assoc]
          rw [he]
          exact hmain
      | false =>
          simp only [drainTwo, ← ho, ← hr, ← hp]
          have he : (p.1 ++ (o ++ p.2.1)) ++ p.2.2 = ((p.1 ++ o) ++ p.2.1) ++ p.2.2 := by
            simp [List.append_assoc]
          rw [he]
          have hswap : (((p.1 ++ o) ++ p.2.1) ++ p.2.2).Perm (((o ++ p.1) ++ p.2.1) ++ p.2.2) :=
            ((List.perm_append_comm).append_right p.2.1).append_right p.2.2
          have he2 : ((o ++ p.1) ++ p.2.1) ++ p.2.2 = o ++ ((p.1 ++ p.2.1) ++ p.2.2) := by
            simp [List.append_assoc]
          rw [he2] at hswap
          exact hswap.trans hmain

theorem drainTwo_store_length {α : Type} (le : α → α → Bool) :
    ∀ (sched : List Bool) (q : List α),
      (drainTwo le sched q).2.2.length = q.length - sched.length := by
  intro sched
  induction sched with
  | nil =>
      intro q
      simp [drainTwo]
  | cons t ts ih =>
      intro q
      have hr := recv_greatest_snd_length le q
      cases t with
      | true =>
          simp only [drainTwo]
          rw [ih, hr]
          simp only [List.length_cons]
          omega
      | false =>
          simp only [drainTwo]
          rw [ih, hr]
          simp only [List.length_cons]
          omega

/-- Claim C7: two cloned receivers draining the shared store concurrently (any
interleaving of their lock-serialized `recv_greatest` calls) never both obtain
the same logical item: together with the leftover store their results
partition the store's items, and once the schedule has at least as many steps
as there were items, the union of the two receivers' results is exactly the
full multiset of items. -/
theorem two_receivers_partition {α : Type} (le : α → α → Bool)
    (sched : List Bool) (q : List α) :
    (((drainTwo le sched q).1 ++ (drainTwo le sched q).2.1) ++
      (drainTwo le sched q).2.2).Perm q ∧
    (q.length ≤ sched.length →
      (drainTwo le sched q).2.2 = [] ∧
        ((drainTwo le sched q).1 ++ (drainTwo le sched q).2.1).Perm q) := by
  refine ⟨drainTwo_conservation le sched q, ?_⟩
  intro hlen
  have hl := drainTwo_store_length le sched q
  have hz : (drainTwo le sched q).2.2.length = 0 := by omega
  have hnil : (drainTwo le sched q).2.2 = [] := List.length_eq_zero.mp hz
  refine ⟨hnil, ?_⟩
  have h := drainTwo_conservation le sched q
  rw [hnil] at h
  simpa using h

/-- Witness for C7: a three-item store drained by schedule A, B, A. -/
theorem two_receivers_partition_witness :
    (([3, 1, 2] : List Nat).length ≤ [true, false, true].length) ∧
    ((drainTwo leN [true, false, true] [3, 1, 2]).2.2 = [] ∧
      ((drainTwo leN [true, false, true] [3, 1, 2]).1 ++
        (drainTwo leN [true, false, true] [3, 1, 2]).2.1).Perm [3, 1, 2]) :=
  ⟨by decide, (two_receivers_partition leN [true, false, true] [3, 1, 2]).2 (by decide)⟩

/-- Stability at the head: the head of the stable sort is the first element
of the original list that is a lower bound, so every element strictly greater
than it (under `le`) sits before its occurrence. -/
theorem head_mergeSort_split {α : Type} {le : α → α → Bool}
    (htrans : ∀ a b c : α, le a b = true → le b c = true → le a c = true)
    (htot : ∀ a b : α, (le a b || le b a) = true) :
    ∀ {q : List α} {x : α}, (q.mergeSort le).head? = some x →
      ∃ l₁ l₂, q = l₁ ++ x :: l₂ ∧ ∀ y ∈ l₁, le y x = false := by
  intro q
  induction q with
  | nil =>
      intro x hx
      simp at hx
  | cons a q₀ ih =>
      intro x hx
      obtain ⟨m₁, m₂, he, he₀, hm₁⟩ := List.mergeSort_cons htrans htot a q₀
      rw [he] at hx
      cases m₁ with
      | nil =>
          simp only [List.nil_append, List.head?_cons, Option.some.injEq] at hx
          subst hx
          exact ⟨[], q₀, rfl, by simp⟩
      | cons c m₁' =>
          have hcx : c = x := by
            simpa using hx
          subst hcx
          have hq₀ : (q₀.mergeSort le).head? = some c := by
            rw [he₀]
            rfl
          obtain ⟨l₁, l₂, hsplit, hl₁⟩ := ih hq₀
          refine ⟨a :: l₁, l₂, by rw [hsplit]; rfl, ?_⟩
          intro y hy
          rcases List.mem_cons.mp hy with hya | hyl
          · subst hya
            have := hm₁ c (List.mem_cons_self c m₁')
            simpa using this
          · exact hl₁ y hyl

/-- Stability at the tail: the last element of the stable sort is the last
element of the original list that is an upper bound, so every element after
its occurrence is strictly smaller (under `le`). -/
theorem getLast_mergeSort_split {α : Type} {le : α → α → Bool}
    (htrans : ∀ a b c : α, le a b = true → le b c = true → le a c = true)
    (htot : ∀ a b : α, (le a b || le b a) = true) :
    ∀ {q : List α} {x : α}, (q.mergeSort le).getLast? = some x →
      ∃ l₁ l₂, q = l₁ ++ x :: l₂ ∧ ∀ y ∈ l₂, le x y = false := by
  intro q
  induction q with
  | nil =>
      intro x hx
      simp at hx
  | cons a q₀ ih =>
      intro x hx
      obtain ⟨m₁, m₂, he, he₀, hm₁⟩ := List.mergeSort_cons htrans htot a q₀
      rw [he] at hx
      cases m₂ with
      | nil =>
          have hax : a = x := by
            rw [List.getLast?_append] at hx
            simpa using hx
          subst hax
          refine ⟨[], q₀, rfl, ?_⟩
          intro y hy
          have hym : y ∈ m₁ := by
            have hmem : y ∈ q₀.mergeSort le := List.mem_mergeSort.mpr hy
            rw [he₀] at hmem
            simpa using hmem
          have := hm₁ y hym
          simpa using this
      | cons c m₂' =>
          have hx' : (c :: m₂').getLast? = some x := by
            rw [List.getLast?_append, List.getLast?_cons_cons] at hx
            cases hz : (c :: m₂').getLast? with
            | none =>
                rw [List.getLast?_eq_none_iff] at hz
                simp at hz
            | some z =>
                rw [hz] at hx
                simp only [Option.or] at hx
                exact hx
          have hq₀ : (q₀.mergeSort le).getLast? = some x := by
            rw [he₀, List.getLast?_append, hx']
            rfl
          obtain ⟨l₁, l₂, hsplit, hl₂⟩ := ih hq₀
          exact ⟨a :: l₁, l₂, by rw [hsplit]; rfl, hl₂⟩

/-- Claim C9: on a channel populated only by sends since construction,
`recv_greatest` returns the most recently sent of the equal-comparing maximal
items: the returned item `x` occurs at a position of the sent sequence such
that every item compares at most `x` and every item sent after that position
compares strictly below `x` (no later item ties with it), because the stable
sort keeps insertion order among equals and the greatest item is popped from
the back. -/
theorem recv_greatest_ties_latest {α : Type} (le : α → α → Bool)
    (htrans : ∀ a b c : α, le a b = true → le b c = true → le a c = true)
    (htot : ∀ a b : α, (le a b || le b a) = true) {q : List α} {x : α}
    (h : (recv_greatest le (sendAll [] q)).1 = some x) :
    ∃ l₁ l₂, q = l₁ ++ x :: l₂ ∧ (∀ y ∈ q, le y x = true) ∧ ∀ y ∈ l₂, le x y = false := by
  rw [sendAll_nil] at h
  have hmax := recv_greatest_max htrans htot h
  simp only [recv_greatest] at h
  obtain ⟨l₁, l₂, hs, hl₂⟩ := getLast_mergeSort_split htrans htot h
  exact ⟨l₁, l₂, hs, hmax, hl₂⟩

/-- Witness for C9: items ordered by first component only; two items tie for
the maximum key 2 and the later-sent one, tagged 1, is returned. -/
theorem recv_greatest_ties_latest_witness :
    (recv_greatest leI (sendAll [] [(1, 0), (2, 0), (2, 1)])).1 = some (2, 1) ∧
    ∃ l₁ l₂, ([(1, 0), (2, 0), (2, 1)] : List (Nat × Nat)) = l₁ ++ (2, 1) :: l₂ ∧
      (∀ y ∈ ([(1, 0), (2, 0), (2, 1)] : List (Nat × Nat)), leI y (2, 1) = true) ∧
      ∀ y ∈ l₂, leI (2, 1) y = false := by
  have h : (recv_greatest leI (sendAll [] [(1, 0), (2, 0), (2, 1)])).1 = some (2, 1) := by
    simp [sendAll, send, recv_greatest, List.mergeSort, List.merge, leI]
  exact ⟨h, recv_greatest_ties_latest leI leI_trans leI_total h⟩

/-- Claim C5 fails as stated for `recv_greatest`: two items that compare equal
(ordered by first component only) are sent in order `(1,0)` then `(1,1)`, yet
`recv_greatest` returns the later-sent `(1,1)`, not the earliest-sent item as
first-in-first-out extraction would require. -/
theorem recv_greatest_ties_not_fifo :
    leI (1, 0) (1, 1) = true ∧ leI (1, 1) (1, 0) = true ∧
    ((1, 0) : Nat × Nat) ≠ (1, 1) ∧
    (recv_greatest leI (sendAll [] [(1, 0), (1, 1)])).1 = some (1, 1) := by
  refine ⟨by decide, by decide, by decide, ?_⟩
  simp [sendAll, send, recv_greatest, List.mergeSort, List.merge, leI]

/-- Claim C5 (amended): among equal-comparing items, `recv_least` on a channel
populated only by sends extracts first-in-first-out — the returned item `x`
occurs at a position such that every item compares at least `x` and every
item sent before that position compares strictly above `x` (no earlier item
ties with it) — while `recv_greatest` extracts last-in-first-out among
equal-comparing maximal items. -/
theorem recv_least_ties_earliest {α : Type} (le : α → α → Bool)
    (htrans : ∀ a b c : α, le a b = true → le b c = true → le a c = true)
    (htot : ∀ a b : α, (le a b || le b a) = true) {q : List α} {x : α}
    (h : (recv_least le (sendAll [] q)).1 = some x) :
    ∃ l₁ l₂, q = l₁ ++ x :: l₂ ∧ (∀ y ∈ q, le x y = true) ∧ ∀ y ∈ l₁, le y x = false := by
  rw [sendAll_nil] at h
  have hmin := recv_least_min htrans htot h
  simp only [recv_least, List.getLast?_reverse] at h
  obtain ⟨l₁, l₂, hs, hl₁⟩ := head_mergeSort_split htrans htot h
  exact ⟨l₁, l₂, hs, hmin, hl₁⟩

/-- Witness for the amended C5: two items tie for the minimal key 1 and the
earlier-sent one, tagged 7, is returned by `recv_least`. -/
theorem recv_least_ties_earliest_witness :
    (recv_least leI (sendAll [] [(2, 5), (1, 7), (1, 9)])).1 = some (1, 7) ∧
    ∃ l₁ l₂, ([(2, 5), (1, 7), (1, 9)] : List (Nat × Nat)) = l₁ ++ (1, 7) :: l₂ ∧
      (∀ y ∈ ([(2, 5), (1, 7), (1, 9)] : List (Nat × Nat)), leI (1, 7) y = true) ∧
      ∀ y ∈ l₁, leI y (1, 7) = false := by
  have h : (recv_least leI (sendAll [] [(2, 5), (1, 7), (1, 9)])).1 = some (1, 7) := by
    simp [sendAll, send, recv_least, List.mergeSort, List.merge, leI]
  exact ⟨h, recv_least_ties_earliest leI leI_trans leI_total h⟩

/-- Two sorted permutations of each other agree when no two of their elements
are equivalent under the relation without being equal. -/
theorem eq_of_perm_of_pairwise {α : Type} {R : α → α → Prop} :
    ∀ {l₁ l₂ : List α}, l₁.Perm l₂ → l₁.Pairwise R → l₂.Pairwise R →
      (∀ a ∈ l₁, ∀ b ∈ l₁, R a b → R b a → a = b) → l₁ = l₂ := by
  intro l₁
  induction l₁ with
  | nil =>
      intro l₂ hp _ _ _
      exact (hp.symm.eq_nil).symm
  | cons a t₁ ih =>
      intro l₂ hp h₁ h₂ hanti
      have ha2 : a ∈ l₂ := hp.mem_iff.mp (List.mem_cons_self a t₁)
      cases l₂ with
      | nil => simp at ha2
      | cons b t₂ =>
          have hab : a = b := by
            rcases List.mem_cons.mp ha2 with h | hat₂
            · exact h
            · have hb1 : b ∈ a :: t₁ := hp.mem_iff.mpr (List.mem_cons_self b t₂)
              rcases List.mem_cons.mp hb1 with h' | hbt₁
              · exact h'.symm
              · have hRab : R a b := List.rel_of_pairwise_cons h₁ hbt₁
                have hRba : R b a := List.rel_of_pairwise_cons h₂ hat₂
                exact hanti a (List.mem_cons_self a t₁) b
                  (List.mem_cons_of_mem a hbt₁) hRab hRba
          subst hab
          have hp' : t₁.Perm t₂ := hp.cons_inv
          have ht := ih hp' h₁.of_cons h₂.of_cons
            (fun x hx y hy hxy hyx =>
              hanti x (List.mem_cons_of_mem a hx) y (List.mem_cons_of_mem a hy) hxy hyx)
          rw [ht]

/-- Claim C8 fails as stated: the two send sequences below are permutations of
each other made of pairwise-distinct item values, yet because the two values
compare equal (the order inspects the first component only) the stable sort
leaves them in send order and the drains differ. -/
theorem drain_depends_on_send_order :
    ([(1, 0), (1, 1)] : List (Nat × Nat)).Perm [(1, 1), (1, 0)] ∧
    ((1, 0) : Nat × Nat) ≠ (1, 1) ∧
    drainGreatest leI (sendAll [] [(1, 0), (1, 1)]) ≠
      drainGreatest leI (sendAll [] [(1, 1), (1, 0)]) := by
  refine ⟨by decide, by decide, ?_⟩
  have h1 : recv_greatest leI [(1, 0), (1, 1)] = (some (1, 1), [(1, 0)]) := by
    simp [recv_greatest, List.mergeSort, List.merge, leI]
  have h2 : recv_greatest leI [((1 : Nat), (0 : Nat))] = (some (1, 0), []) := by
    simp [recv_greatest, List.mergeSort, leI]
  have h3 : recv_greatest leI ([] : List (Nat × Nat)) = (none, []) := by
    simp [recv_greatest, List.mergeSort]
  have h1' : recv_greatest leI [(1, 1), (1, 0)] = (some (1, 0), [(1, 1)]) := by
    simp [recv_greatest, List.mergeSort, List.merge, leI]
  have h2' : recv_greatest leI [((1 : Nat), (1 : Nat))] = (some (1, 1), []) := by
    simp [recv_greatest, List.mergeSort, leI]
  rw [sendAll_nil, sendAll_nil, drainGreatest_eq_cons h1, drainGreatest_eq_cons h2,
    drainGreatest_eq_nil h3, drainGreatest_eq_cons h1', drainGreatest_eq_cons h2',
    drainGreatest_eq_nil h3]
  decide

/-- Claim C8 (amended): the drain result does not depend on the order in which
items were sent, provided no two of the sent items compare equal under the
order: for two send sequences that are permutations of each other, draining
via `recv_greatest` (or via `recv_least`) produces the identical output
sequence.  (Items that are distinct as values but compare equal break this,
as the stable sort then preserves their send order.) -/
theorem drain_order_insensitive {α : Type} (le : α → α → Bool)
    (htrans : ∀ a b c : α, le a b = true → le b c = true → le a c = true)
    (htot : ∀ a b : α, (le a b || le b a) = true) {q₁ q₂ : List α}
    (hperm : q₁.Perm q₂)
    (hanti : ∀ a ∈ q₁, ∀ b ∈ q₁, le a b = true → le b a = true → a = b) :
    drainGreatest le (sendAll [] q₁) = drainGreatest le (sendAll [] q₂) ∧
    drainLeast le (sendAll [] q₁) = drainLeast le (sendAll [] q₂) := by
  rw [sendAll_nil, sendAll_nil]
  have hmem₁ : ∀ y ∈ drainGreatest le q₁, y ∈ q₁ :=
    fun y hy => (drainGreatest_perm le q₁).mem_iff.mp hy
  have hmem₂ : ∀ y ∈ drainLeast le q₁, y ∈ q₁ :=
    fun y hy => (drainLeast_perm le q₁).mem_iff.mp hy
  constructor
  · refine eq_of_perm_of_pairwise
      ((drainGreatest_perm le q₁).trans (hperm.trans (drainGreatest_perm le q₂).symm))
      (drainGreatest_pairwise htrans htot q₁)
      (drainGreatest_pairwise htrans htot q₂) ?_
    intro a ha b hb hab hba
    exact hanti a (hmem₁ a ha) b (hmem₁ b hb) hba hab
  · refine eq_of_perm_of_pairwise
      ((drainLeast_perm le q₁).trans (hperm.trans (drainLeast_perm le q₂).symm))
      (drainLeast_pairwise htrans htot q₁)
      (drainLeast_pairwise htrans htot q₂) ?_
    intro a ha b hb hab hba
    exact hanti a (hmem₂ a ha) b (hmem₂ b hb) hab hba

/-- Witness for the amended C8: two permuted send orders of three distinct
numbers drain identically. -/
theorem drain_order_insensitive_witness :
    ([3, 1, 2] : List Nat).Perm [2, 3, 1] ∧
    (drainGreatest leN (sendAll [] [3, 1, 2]) = drainGreatest leN (sendAll [] [2, 3, 1]) ∧
      drainLeast leN (sendAll [] [3, 1, 2]) = drainLeast leN (sendAll [] [2, 3, 1])) :=
  ⟨by decide,
    drain_order_insensitive leN leN_trans leN_total (by decide) (by decide)⟩

/-- Embedding of `pmpmc()`: the constructor allocates one fresh shared `Inner` holding an
empty vector; the returned Sender and Receiver are handles on that one store,
so the channel's initial state is the empty store. -/
def pmpmc {α : Type} : List α :=
  []

/-- One observable step of the channel: the operation performed, the value it
returns (`none` for `send` and the clones, the popped item for receives), and
the store it leaves behind. -/
inductive Step {α : Type} (le : α → α → Bool) : List α → Op α → Option α × List α → Prop where
  | send : ∀ (q : List α) (x : α), Step le q (Op.send x) (none, send q x)
  | recvG : ∀ q : List α, Step le q Op.recvG (recv_greatest le q)
  | recvL : ∀ q : List α, Step le q Op.recvL (recv_least le q)
  | cloneS : ∀ q : List α, Step le q Op.cloneS (none, q)
  | cloneR : ∀ q : List α, Step le q Op.cloneR (none, q)

/-- A sequential program executed step by step, recording every call's return
value and the final store. -/
inductive Run {α : Type} (le : α → α → Bool) :
    List α → List (Op α) → List (Option α) → List α → Prop where
  | nil : ∀ q : List α, Run le q [] [] q
  | step : ∀ (q : List α) (op : Op α) (out : Option α) (q' : List α)
      (ops : List (Op α)) (outs : List (Option α)) (q'' : List α),
      Step le q op (out, q') → Run le q' ops outs q'' → Run le q (op :: ops) (out :: outs) q''

theorem step_deterministic {α : Type} {le : α → α → Bool} {q : List α} {op : Op α}
    {r₁ r₂ : Option α × List α} (h₁ : Step le q op r₁) (h₂ : Step le q op r₂) :
    r₁ = r₂ := by
  cases h₁ <;> cases h₂ <;> rfl

/-- Claim C10: every channel operation is deterministic — a fixed sequential
program of `pmpmc`, `clone`, `send`, `recv_greatest` and `recv_least` calls
with fixed item arguments produces, on any two runs, identical return values
at every call and identical final store contents. -/
theorem run_deterministic {α : Type} {le : α → α → Bool} {q : List α}
    {ops : List (Op α)} {outs₁ outs₂ : List (Option α)} {q₁ q₂ : List α}
    (h₁ : Run le q ops outs₁ q₁) (h₂ : Run le q ops outs₂ q₂) :
    outs₁ = outs₂ ∧ q₁ = q₂ := by
  induction h₁ generalizing outs₂ q₂ with
  | nil q =>
      cases h₂
      exact ⟨rfl, rfl⟩
  | step q op out q' ops outs q'' hstep hrun ih =>
      cases h₂ with
      | step _ _ out₂ q₂' _ outs₂' _ hstep₂ hrun₂ =>
          have he : ((out, q') : Option α × List α) = (out₂, q₂') :=
            step_deterministic hstep hstep₂
          obtain ⟨e1, e2⟩ := Prod.mk.injEq .. ▸ he
          subst e1
          subst e2
          obtain ⟨eo, eq⟩ := ih hrun₂
          exact ⟨by rw [eo], eq⟩

/-- Witness for C10: the program `pmpmc(); tx.clone(); send 3; recv_greatest`
runs to the outputs `[none, none, some 3]`, and determinism applied to this
run equates its outputs and final store with themselves. -/
theorem run_deterministic_witness :
    ([none, none, some 3] : List (Option Nat)) = [none, none, some 3] ∧
    ([] : List Nat) = [] := by
  have hr : recv_greatest leN [3] = (some 3, ([] : List Nat)) := by
    simp [recv_greatest, List.mergeSort]
  have hstep0 : Step leN pmpmc Op.cloneS (none, pmpmc) := Step.cloneS pmpmc
  have hstep1 : Step leN pmpmc (Op.send 3) (none, [3]) := Step.send [] 3
  have hstep2 : Step leN [3] Op.recvG (some 3, []) := by
    rw [← hr]
    exact Step.recvG [3]
  have hrun : Run leN pmpmc [Op.cloneS, Op.send 3, Op.recvG] [none, none, some 3] [] :=
    Run.step _ _ _ _ _ _ _ hstep0
      (Run.step _ _ _ _ _ _ _ hstep1
        (Run.step _ _ _ _ _ _ _ hstep2 (Run.nil [])))
  exact run_deterministic hrun hrun

end Pmpmc
